import Mathlib

set_option maxHeartbeats 1000000

/-! Shallow embedding of the Unmanic notify_radarr plugin (plugin.py) and
verification of the specification claims about it.  Python values are
modelled with explicit Option/Except types; truthiness is made explicit;
external collaborators (the Radarr API client, the pending-task service,
the library catalog, the filesystem) are modelled as oracle parameters. -/

/-- Python truthiness for an optional string: None and the empty string are falsy. -/
def pyTruthyS : Option String → Bool
  | none => false
  | some s => decide (s ≠ "")

/-- Python truthiness for an optional integer: None and 0 are falsy. -/
def pyTruthyI : Option Int → Bool
  | none => false
  | some n => decide (n ≠ 0)

/-! ### The rule-query rewrite (render_plugin_api, line 600)

The source computes safe_query by two plain substring replacements:
query.replace applied with AND/and first and then with OR/or. -/

/-- Python str.replace on character lists: replaces non-overlapping occurrences
of pat left to right.  The fuel argument is always instantiated with the length
of the subject string, which bounds the recursion. -/
def replaceFuel (pat rep : List Char) : Nat → List Char → List Char
  | 0, s => s
  | _ + 1, [] => []
  | n + 1, c :: rest =>
    if pat ≠ [] ∧ pat.isPrefixOf (c :: rest) then
      rep ++ replaceFuel pat rep n ((c :: rest).drop pat.length)
    else
      c :: replaceFuel pat rep n rest

/-- Python s.replace(pat, rep) for a non-empty pattern. -/
def pyReplace (s pat rep : String) : String :=
  String.mk (replaceFuel pat.data rep.data s.data.length s.data)

/-- The safe_query rewrite performed before rule evaluation in render_plugin_api. -/
def safeQuery (query : String) : String :=
  pyReplace (pyReplace query "AND" "and") "OR" "or"

/-- Boolean occurrence test: does pat occur as a contiguous substring of the list. -/
def hasInfix (pat : List Char) : List Char → Bool
  | [] => pat.isEmpty
  | c :: rest => pat.isPrefixOf (c :: rest) || hasInfix pat rest

theorem replaceFuel_of_not_hasInfix (pat rep : List Char) :
    ∀ (n : Nat) (s : List Char), s.length ≤ n → hasInfix pat s = false →
      replaceFuel pat rep n s = s := by
  intro n
  induction n with
  | zero => intro s _ _; rfl
  | succ n ih =>
    intro s hlen hinf
    match s with
    | [] => rfl
    | c :: rest =>
      simp only [hasInfix, Bool.or_eq_false_iff] at hinf
      simp only [replaceFuel]
      rw [if_neg]
      · rw [ih rest (by simpa using Nat.le_of_succ_le_succ hlen) hinf.2]
      · intro hcon
        have := hcon.2
        rw [hinf.1] at this
        exact Bool.false_ne_true this

/-! ### The import-mode minimum-size filter (check_file_size_under_max_file_size
and the import branch of process_files) -/

/-- check_file_size_under_max_file_size from plugin.py (lines 267 to 271), with the
file size (os.stat st_size) and the parsed minimum size (humanfriendly.parse_size)
supplied as naturals.  Returns true exactly when the file is to be skipped. -/
def check_file_size_under_max_file_size (st_size minimum_size : Nat) : Bool :=
  if minimum_size < st_size then false else true

/-- The import-mode branch of process_files (lines 394 to 403): for every destination
file, the file is skipped (continue) when the size check returns true and
otherwise import_mode is invoked for it.  The result is the list of destination files for
which import_mode is actually called, in order.  The filesystem stat is the
fileSize oracle. -/
def process_files_import (fileSize : String → Nat) (minimum_size : Nat)
    (destination_files : List String) : List String :=
  destination_files.filterMap fun f =>
    if check_file_size_under_max_file_size (fileSize f) minimum_size then none
    else some f

/-! ### update_mode (lines 274 to 337) -/

/-- Result value of a Radarr post_command call as inspected by update_mode:
a dict carrying an optional message value, or a non-dict value. -/
inductive CmdResult
  | dict (message : Option String)
  | nonDict
deriving DecidableEq

/-- The error test in update_mode: isinstance dict and a truthy message value. -/
def cmdReportsError : CmdResult → Bool
  | .dict (some m) => decide (m ≠ "")
  | .dict none => false
  | .nonDict => false

/-- Oracle for the Radarr API calls made by update_mode.  An error value models a
raised exception.  lookup_movie yields the id field of each lookup result.  The
result of the RenameMovie call only affects logging, so it is not modelled. -/
structure UpdateOracle where
  lookup_movie : Except Unit (List (Option Int))
  refreshMovie : Except Unit CmdResult

/-- Externally observable events of update_mode, in program order. -/
inductive UpdateEvent
  | refreshCall (movieId : Int)
  | sleepSeconds (secs : Nat)
  | renameCall (movieId : Int)
deriving DecidableEq

/-- Movie id selection in update_mode (lines 283 to 296): the first lookup result
with a truthy id field; the subsequent truthiness re-check of movie_id is kept.
A raised lookup or a non-list result leads to no commands being issued. -/
def movieIdOf (o : UpdateOracle) : Option Int :=
  match o.lookup_movie with
  | .error _ => none
  | .ok results =>
    match results.find? pyTruthyI with
    | some (some n) => if n ≠ 0 then some n else none
    | _ => none

/-- update_mode from plugin.py as the ordered trace of its external events: the
RefreshMovie command, the settling sleep of 10 seconds, and the RenameMovie
command.  A refresh exception or an error message in the refresh result returns
before any rename; the rename only runs when rename_files is set. -/
def update_mode_trace (o : UpdateOracle) (rename_files : Bool) : List UpdateEvent :=
  match movieIdOf o with
  | none => []
  | some movieId =>
    match o.refreshMovie with
    | .error _ => [.refreshCall movieId]
    | .ok result =>
      if cmdReportsError result then [.refreshCall movieId]
      else if rename_files then
        [.refreshCall movieId, .sleepSeconds 10, .renameCall movieId]
      else
        [.refreshCall movieId]

/-! ### on_postprocessor_task_results (lines 406 to 447) -/

/-- The two settings read by on_postprocessor_task_results before notifying. -/
structure NotifySettings where
  host_url : String
  api_key : String

/-- The fields of the runner data object consumed by on_postprocessor_task_results.
The two success fields are Python-truthy flags. -/
structure PostprocessorData where
  task_processing_success : Bool
  file_move_processes_success : Bool
  source_abspath : Option String
  destination_files : List String

/-- Arguments of the single process_files invocation, which is the only site that
performs external service calls or creates tasks downstream of this handler. -/
structure ProcessFilesCall where
  source_file : Option String
  destination_files : List String
  host_url : String
  api_key : String
deriving DecidableEq

/-- on_postprocessor_task_results from plugin.py: returns the process_files
invocation it performs, or none when one of the three guards returns early
(task not successful, file moves not successful, empty API key). -/
def on_postprocessor_task_results (settings : NotifySettings) (d : PostprocessorData) :
    Option ProcessFilesCall :=
  if ¬ d.task_processing_success then none
  else if ¬ d.file_move_processes_success then none
  else if settings.api_key = "" then none
  else some ⟨d.source_abspath, d.destination_files, settings.host_url, settings.api_key⟩

/-! ## Claim theorems (first group) -/

/-- C2 counterexample: the AND/OR rewrite is a plain substring replacement, so it
alters non-keyword content (the identifier ANDROID becomes andROID), and a
mixed-case connective (And) is not normalized to lowercase, so such a query does
not evaluate like its lowercase form.  Both parts of the claim fail. -/
theorem c2_counterexample :
    safeQuery "ANDROID in tags" = "andROID in tags"
    ∧ "andROID in tags" ≠ "ANDROID in tags"
    ∧ safeQuery "x And y" = "x And y"
    ∧ "x And y" ≠ "x and y" :=
  ⟨by decide, by decide, by decide, by decide⟩

/-- C2 (amended): the evaluator rewrites exactly the uppercase substrings AND and
OR to lowercase, wherever they occur in the query string, string literals and
identifiers included; queries containing neither substring are passed through
unchanged, and mixed-case forms of the keywords are not rewritten. -/
theorem c2_amended :
    (∀ q : String, hasInfix "AND".data q.data = false →
        hasInfix "OR".data q.data = false → safeQuery q = q)
    ∧ safeQuery "quality_profile == uhd AND anime OR kids" = "quality_profile == uhd and anime or kids"
    ∧ safeQuery "x And y" = "x And y" := by
  refine ⟨?_, by decide, by decide⟩
  intro q h1 h2
  show pyReplace (pyReplace q "AND" "and") "OR" "or" = q
  have e1 : pyReplace q "AND" "and" = q := by
    show String.mk (replaceFuel "AND".data "and".data q.data.length q.data) = q
    rw [replaceFuel_of_not_hasInfix "AND".data "and".data q.data.length q.data (Nat.le_refl _) h1]
  rw [e1]
  show String.mk (replaceFuel "OR".data "or".data q.data.length q.data) = q
  rw [replaceFuel_of_not_hasInfix "OR".data "or".data q.data.length q.data (Nat.le_refl _) h2]

/-- Witness for the amended C2 theorem at a concrete keyword-free query. -/
theorem c2_amended_witness :
    hasInfix "AND".data "event_type".data = false
    ∧ hasInfix "OR".data "event_type".data = false
    ∧ safeQuery "event_type" = "event_type" :=
  ⟨by decide, by decide, c2_amended.1 "event_type" (by decide) (by decide)⟩

/-- C4 counterexample: a file whose size equals the threshold is skipped (no
external call is issued for it) even though its size is not below the threshold,
so the strict below rule of the claim does not hold at the boundary. -/
theorem c4_counterexample :
    process_files_import (fun _ => 100) 100 ["a.mkv"] = []
    ∧ ¬ (100 < 100) :=
  ⟨rfl, by omega⟩

theorem filterMap_skip_eq_filter {α : Type} (p : α → Bool) (l : List α) :
    (l.filterMap fun f => if p f then none else some f) = l.filter fun f => !(p f) := by
  induction l with
  | nil => rfl
  | cons a t ih =>
    by_cases h : p a <;> simp [List.filterMap_cons, List.filter_cons, h, ih]

/-- C4 (amended): in import mode a destination file is skipped if and only if its
size is at or below the parsed minimum size (a non-strict comparison): the list
of import calls is exactly the files whose size strictly exceeds the threshold,
a file at the threshold is skipped, and one just above it is imported. -/
theorem c4_amended :
    (∀ (fileSize : String → Nat) (minimum_size : Nat) (files : List String),
        process_files_import fileSize minimum_size files
          = files.filter fun f => decide (minimum_size < fileSize f))
    ∧ (∀ m : Nat, check_file_size_under_max_file_size m m = true)
    ∧ (∀ m : Nat, check_file_size_under_max_file_size (m + 1) m = false)
    ∧ (∀ m sz : Nat, check_file_size_under_max_file_size sz m = true ↔ sz ≤ m) := by
  refine ⟨?_, ?_, ?_, ?_⟩
  · intro fileSize m files
    rw [process_files_import, filterMap_skip_eq_filter]
    congr 1
    funext f
    by_cases h : m < fileSize f <;> simp [check_file_size_under_max_file_size, h]
  · intro m
    simp [check_file_size_under_max_file_size]
  · intro m
    simp [check_file_size_under_max_file_size]
  · intro m sz
    by_cases h : m < sz
    · simp [check_file_size_under_max_file_size, h]
    · simp [check_file_size_under_max_file_size, h]
      omega

/-- C8: in the update-mode completion flow a RenameMovie command is only ever
issued after a RefreshMovie command for the same movie id has been issued and
has succeeded (no exception and no error message in its result), and the fixed
10-second settling sleep sits between the two commands in the event trace. -/
theorem c8_refresh_before_rename (o : UpdateOracle) (rename_files : Bool) (mid : Int)
    (hmem : UpdateEvent.renameCall mid ∈ update_mode_trace o rename_files) :
    update_mode_trace o rename_files
      = [.refreshCall mid, .sleepSeconds 10, .renameCall mid]
    ∧ movieIdOf o = some mid
    ∧ (∃ r, o.refreshMovie = .ok r ∧ cmdReportsError r = false)
    ∧ rename_files = true := by
  rcases hm : movieIdOf o with _ | m
  · simp [update_mode_trace, hm] at hmem
  · rcases hr : o.refreshMovie with ⟨⟩ | r
    · simp [update_mode_trace, hm, hr] at hmem
    · by_cases he : cmdReportsError r = true
      · simp [update_mode_trace, hm, hr, he] at hmem
      · rw [Bool.not_eq_true] at he
        rcases hf : rename_files with _ | _
        · simp [update_mode_trace, hm, hr, he, hf] at hmem
        · simp [update_mode_trace, hm, hr, he, hf] at hmem
          subst hmem
          exact ⟨by simp [update_mode_trace, hm, hr, he], rfl, ⟨r, rfl, he⟩, rfl⟩

/-- Witness for C8 at a concrete oracle whose lookup returns id 42 and whose
refresh succeeds with a message-free dict result. -/
theorem c8_refresh_before_rename_witness :
    UpdateEvent.renameCall 42 ∈ update_mode_trace ⟨.ok [some 42], .ok (.dict none)⟩ true
    ∧ update_mode_trace ⟨.ok [some 42], .ok (.dict none)⟩ true
        = [.refreshCall 42, .sleepSeconds 10, .renameCall 42] :=
  ⟨by decide, (c8_refresh_before_rename ⟨.ok [some 42], .ok (.dict none)⟩ true 42 (by decide)).1⟩

/-- C10: on_postprocessor_task_results performs no process_files invocation (and
hence no external service call and no task creation) when the task-success flag
is falsy, when the file-move-success flag is falsy, or when the configured API
key is empty: in each case it returns after logging only. -/
theorem c10_guards_block_notification (s : NotifySettings) (d : PostprocessorData)
    (h : d.task_processing_success = false ∨ d.file_move_processes_success = false
          ∨ s.api_key = "") :
    on_postprocessor_task_results s d = none := by
  by_cases h1 : d.task_processing_success <;>
    by_cases h2 : d.file_move_processes_success <;>
      rcases h with h | h | h <;>
        simp_all [on_postprocessor_task_results]

/-- Witness for C10 with an empty API key. -/
theorem c10_guards_block_notification_witness :
    on_postprocessor_task_results ⟨"http://localhost:7878", ""⟩ ⟨true, true, none, []⟩ = none :=
  c10_guards_block_notification ⟨"http://localhost:7878", ""⟩ ⟨true, true, none, []⟩
    (Or.inr (Or.inr rfl))

/-! ### POSIX path helpers (os.path as used by render_plugin_api)

The plugin manipulates paths with os.path.normpath, dirname, relpath, join and
str.startswith.  These are modelled here on character lists, following the
CPython posixpath implementations restricted to the constructs the plugin can
reach (no current-directory resolution is needed: the guarded call sites only
apply relpath to absolute inputs). -/

/-- Split a character list on the slash character (str.split with sep slash):
always returns at least one (possibly empty) component. -/
def splitSlash : List Char → List (List Char)
  | [] => [[]]
  | c :: rest =>
    match splitSlash rest with
    | [] => [[]]
    | h :: t => if c = '/' then [] :: h :: t else (c :: h) :: t

/-- Join components with single slashes (sep.join). -/
def intercalateSlash : List (List Char) → List Char
  | [] => []
  | [c] => c
  | c :: rest => c ++ '/' :: intercalateSlash rest

/-- One step of the normpath component scan, following posixpath.normpath:
empty and dot components are dropped, dotdot pops the previous component except
at the root of an absolute path or after an unresolved dotdot. -/
def normStep (isAbs : Bool) (acc : List (List Char)) (comp : List Char) : List (List Char) :=
  if comp = [] ∨ comp = ['.'] then acc
  else if comp ≠ ['.', '.'] ∨ (isAbs = false ∧ acc = []) ∨ acc.getLast? = some ['.', '.'] then
    acc ++ [comp]
  else if acc ≠ [] then acc.dropLast
  else acc

/-- posixpath.normpath on a character list, including the two-leading-slash
special case of POSIX. -/
def normpathL (p : List Char) : List Char :=
  if p = [] then ['.']
  else
    let isAbs : Bool := p.head? = some '/'
    let dbl : Bool := isAbs && ((p.drop 1).head? = some '/') && !((p.drop 2).head? = some '/')
    let newComps := (splitSlash p).foldl (normStep isAbs) []
    let body := intercalateSlash newComps
    let out := (if isAbs then (if dbl then ['/', '/'] else ['/']) else []) ++ body
    if out = [] then ['.'] else out

/-- The slice p up to and including its last slash (posixpath.dirname head). -/
def takeToLastSlash : List Char → List Char
  | [] => []
  | c :: rest =>
    if rest.contains '/' then c :: takeToLastSlash rest
    else if c = '/' then ['/'] else []

/-- Remove trailing slashes (str.rstrip with a slash argument). -/
def rstripSlashes (l : List Char) : List Char :=
  (l.reverse.dropWhile fun c => c = '/').reverse

/-- posixpath.dirname on a character list. -/
def dirnameL (p : List Char) : List Char :=
  let head := takeToLastSlash p
  if head ≠ [] ∧ head.any fun c => c ≠ '/' then rstripSlashes head else head

/-- Length of the longest common component prefix (os.path.commonprefix on the
two component lists, as used by posixpath.relpath). -/
def commonPrefixLen : List (List Char) → List (List Char) → Nat
  | a :: as, b :: bs => if a = b then commonPrefixLen as bs + 1 else 0
  | _, _ => 0

/-- posixpath.relpath for absolute inputs: both sides are normalized, split into
non-empty components, the common prefix is removed and dotdot components are
prepended for the remaining start components. -/
def relpathL (path start : List Char) : List Char :=
  let pl := (splitSlash (normpathL path)).filter fun c => c ≠ []
  let sl := (splitSlash (normpathL start)).filter fun c => c ≠ []
  let i := commonPrefixLen sl pl
  let rel := List.replicate (sl.length - i) ['.', '.'] ++ pl.drop i
  if rel = [] then ['.'] else intercalateSlash rel

/-- posixpath.join for two arguments. -/
def joinPathL (a b : List Char) : List Char :=
  if b.head? = some '/' then b
  else if a = [] ∨ a.getLast? = some '/' then a ++ b
  else a ++ '/' :: b

/-- The path translation performed for a matched rule in render_plugin_api
(lines 609 to 619): the service root is dirname of the normalized movie root
(falsy root or falsy dirname drops the match), the normalized file path must
start with the service root as a string, and the result is the normalization of
the library path joined with the path of the file relative to the service root. -/
def translatePath (file_path root_path library_path : String) : Option String :=
  if root_path.data = [] then none
  else
    let d := dirnameL (normpathL root_path.data)
    if d = [] then none
    else if d.isPrefixOf (normpathL file_path.data) = false then none
    else some (String.mk (normpathL (joinPathL library_path.data (relpathL file_path.data d))))

/-- A normal path component: non-empty, not a dot or dotdot, and slash-free. -/
def NormalComp (c : List Char) : Prop :=
  c ≠ [] ∧ c ≠ ['.'] ∧ c ≠ ['.', '.'] ∧ '/' ∉ c

/-- All components of the list are normal. -/
def NormalComps (l : List (List Char)) : Prop := ∀ c ∈ l, NormalComp c

instance (c : List Char) : Decidable (NormalComp c) := by
  unfold NormalComp; infer_instance

instance (l : List (List Char)) : Decidable (NormalComps l) := by
  unfold NormalComps; infer_instance

/-- The absolute path with the given components. -/
def mkAbsL (comps : List (List Char)) : List Char := '/' :: intercalateSlash comps

/-- The absolute path with the given components, as a string. -/
def mkAbsStr (comps : List (List Char)) : String := String.mk (mkAbsL comps)

/-! ### Facts about the path helpers -/

theorem splitSlash_ne_nil (s : List Char) : splitSlash s ≠ [] := by
  cases s with
  | nil => simp [splitSlash]
  | cons c rest =>
    simp only [splitSlash]
    cases h : splitSlash rest with
    | nil => simp
    | cons a t => by_cases hc : c = '/' <;> simp [hc]

theorem splitSlash_no_slash : ∀ c : List Char, '/' ∉ c → splitSlash c = [c] := by
  intro c
  induction c with
  | nil => intro _; rfl
  | cons x rest ih =>
    intro h
    have hx : x ≠ '/' := fun e => h (by simp [e])
    have hr : '/' ∉ rest := fun hm => h (List.mem_cons_of_mem _ hm)
    simp only [splitSlash, ih hr]
    simp [hx]

theorem splitSlash_comp_slash : ∀ c : List Char, '/' ∉ c →
    ∀ s : List Char, splitSlash (c ++ '/' :: s) = c :: splitSlash s := by
  intro c
  induction c with
  | nil =>
    intro _ s
    simp only [List.nil_append, splitSlash]
    cases h : splitSlash s with
    | nil => exact absurd h (splitSlash_ne_nil s)
    | cons a t => simp
  | cons x rest ih =>
    intro h s
    have hx : x ≠ '/' := fun e => h (by simp [e])
    have hr : '/' ∉ rest := fun hm => h (List.mem_cons_of_mem _ hm)
    simp only [List.cons_append, splitSlash, List.append_eq]
    rw [ih hr s]
    simp [hx]

theorem splitSlash_intercalate : ∀ comps : List (List Char), comps ≠ [] →
    (∀ c ∈ comps, '/' ∉ c) → splitSlash (intercalateSlash comps) = comps := by
  intro comps
  induction comps with
  | nil => intro h _; exact absurd rfl h
  | cons c rest ih =>
    intro _ hall
    cases rest with
    | nil =>
      simp only [intercalateSlash]
      exact splitSlash_no_slash c (hall c (by simp))
    | cons c2 r2 =>
      simp only [intercalateSlash]
      rw [splitSlash_comp_slash c (hall c (by simp)),
        ih (by simp) fun x hx => hall x (List.mem_cons_of_mem _ hx)]

theorem splitSlash_mkAbs (comps : List (List Char)) (hne : comps ≠ [])
    (hall : ∀ c ∈ comps, '/' ∉ c) :
    splitSlash (mkAbsL comps) = [] :: comps := by
  show splitSlash ('/' :: intercalateSlash comps) = [] :: comps
  have h := splitSlash_intercalate comps hne hall
  simp only [splitSlash]
  cases hs : splitSlash (intercalateSlash comps) with
  | nil => exact absurd hs (splitSlash_ne_nil _)
  | cons a t =>
    rw [hs] at h
    simp [h]

theorem normStep_normal (isAbs : Bool) (acc : List (List Char)) (c : List Char)
    (hc : NormalComp c) : normStep isAbs acc c = acc ++ [c] := by
  obtain ⟨h1, h2, h3, _⟩ := hc
  simp only [normStep]
  rw [if_neg (by simp [h1, h2]), if_pos (Or.inl h3)]

theorem foldl_normStep_normal (isAbs : Bool) :
    ∀ comps : List (List Char), NormalComps comps →
      ∀ acc, comps.foldl (normStep isAbs) acc = acc ++ comps := by
  intro comps
  induction comps with
  | nil => intro _ acc; simp
  | cons c rest ih =>
    intro h acc
    have hc : NormalComp c := h c (by simp)
    have hrest : NormalComps rest := fun x hx => h x (List.mem_cons_of_mem _ hx)
    simp only [List.foldl_cons, normStep_normal isAbs acc c hc, ih hrest]
    simp

theorem intercalate_append : ∀ a : List (List Char), a ≠ [] → ∀ b : List (List Char), b ≠ [] →
    intercalateSlash (a ++ b) = intercalateSlash a ++ '/' :: intercalateSlash b := by
  intro a
  induction a with
  | nil => intro h; exact absurd rfl h
  | cons c rest ih =>
    intro _ b hb
    cases rest with
    | nil =>
      cases b with
      | nil => exact absurd rfl hb
      | cons b1 bs => simp [intercalateSlash]
    | cons c2 r2 =>
      have h2 := ih (by simp) b hb
      simp only [List.cons_append] at h2 ⊢
      simp only [intercalateSlash, h2, List.append_assoc, List.cons_append]

theorem intercalate_ne_nil : ∀ comps : List (List Char), comps ≠ [] →
    NormalComps comps → intercalateSlash comps ≠ [] := by
  intro comps
  cases comps with
  | nil => intro h _; exact absurd rfl h
  | cons c rest =>
    intro _ h
    have hc : c ≠ [] := (h c (by simp)).1
    cases rest with
    | nil => simpa [intercalateSlash] using hc
    | cons c2 r2 => simp [intercalateSlash]

theorem head?_intercalate (c : List Char) (rest : List (List Char)) (hc : c ≠ []) :
    (intercalateSlash (c :: rest)).head? = c.head? := by
  cases rest with
  | nil => simp [intercalateSlash]
  | cons c2 r2 =>
    cases c with
    | nil => exact absurd rfl hc
    | cons x xs => simp [intercalateSlash]

theorem getLast?_exists_mem : ∀ l : List Char, l ≠ [] → ∃ z, l.getLast? = some z ∧ z ∈ l := by
  intro l
  induction l with
  | nil => intro h; exact absurd rfl h
  | cons x rest ih =>
    intro _
    cases rest with
    | nil => exact ⟨x, rfl, by simp⟩
    | cons y t =>
      obtain ⟨z, hz, hm⟩ := ih (by simp)
      exact ⟨z, by rw [List.getLast?_cons_cons]; exact hz, List.mem_cons_of_mem _ hm⟩

theorem getLast?_intercalate_ne_slash : ∀ comps : List (List Char), comps ≠ [] →
    NormalComps comps → ∃ z, (intercalateSlash comps).getLast? = some z ∧ z ≠ '/' := by
  intro comps
  induction comps with
  | nil => intro h _; exact absurd rfl h
  | cons c rest ih =>
    intro _ h
    cases rest with
    | nil =>
      obtain ⟨h1, _, _, h4⟩ := h c (by simp)
      obtain ⟨z, hz, hm⟩ := getLast?_exists_mem c h1
      exact ⟨z, by simpa [intercalateSlash] using hz, fun e => h4 (e ▸ hm)⟩
    | cons c2 r2 =>
      have hrest : NormalComps (c2 :: r2) := fun x hx => h x (List.mem_cons_of_mem _ hx)
      obtain ⟨z, hz, hne⟩ := ih (by simp) hrest
      have hnn : intercalateSlash (c2 :: r2) ≠ [] := intercalate_ne_nil _ (by simp) hrest
      refine ⟨z, ?_, hne⟩
      cases hI : intercalateSlash (c2 :: r2) with
      | nil => exact absurd hI hnn
      | cons w ws =>
        rw [hI] at hz
        simp only [intercalateSlash, hI]
        rw [List.getLast?_append, List.getLast?_cons_cons, hz]
        rfl

theorem takeToLastSlash_append (d : List Char) (hd : '/' ∉ d) :
    ∀ xs : List Char, takeToLastSlash (xs ++ '/' :: d) = xs ++ ['/'] := by
  intro xs
  induction xs with
  | nil => simp [takeToLastSlash, hd]
  | cons x t ih =>
    have hmem : '/' ∈ t ++ '/' :: d := by simp
    simp [takeToLastSlash, hmem, ih]

theorem dropWhile_head_ne (p : Char → Bool) : ∀ l : List Char,
    (∀ z, l.head? = some z → p z = false) → l.dropWhile p = l := by
  intro l h
  cases l with
  | nil => rfl
  | cons x t =>
    have := h x rfl
    simp [List.dropWhile_cons, this]

theorem rstrip_append_slash (ys : List Char) (z : Char) (hz : ys.getLast? = some z)
    (hzne : z ≠ '/') : rstripSlashes (ys ++ ['/']) = ys := by
  show ((ys ++ ['/']).reverse.dropWhile fun c => c = '/').reverse = ys
  rw [List.reverse_append]
  simp only [List.reverse_cons, List.reverse_nil, List.nil_append, List.cons_append]
  rw [List.dropWhile_cons]
  simp only [decide_True]
  rw [dropWhile_head_ne _ ys.reverse]
  · exact List.reverse_reverse ys
  · intro w hw
    rw [List.head?_reverse] at hw
    rw [hw] at hz
    have : w = z := by injection hz
    subst this
    simp [hzne]

theorem normpath_mkAbs : ∀ comps : List (List Char), NormalComps comps →
    normpathL (mkAbsL comps) = mkAbsL comps := by
  intro comps h
  cases comps with
  | nil => decide
  | cons c rest =>
    have hc : NormalComp c := h c (by simp)
    have hslash : ∀ x ∈ c :: rest, '/' ∉ x := fun x hx => (h x hx).2.2.2
    have hsplit := splitSlash_mkAbs (c :: rest) (by simp) hslash
    have hfold := foldl_normStep_normal true (c :: rest) h []
    obtain ⟨ch, c', hcc⟩ : ∃ ch c', c = ch :: c' := by
      cases c with
      | nil => exact absurd rfl hc.1
      | cons a b => exact ⟨a, b, rfl⟩
    have hch : ch ≠ '/' := fun e => hc.2.2.2 (by rw [hcc, e]; simp)
    have hhead : (intercalateSlash (c :: rest)).head? = some ch := by
      rw [head?_intercalate c rest hc.1, hcc]
      rfl
    show normpathL ('/' :: intercalateSlash (c :: rest)) = '/' :: intercalateSlash (c :: rest)
    rw [normpathL, if_neg (by simp)]
    have hrest : NormalComps rest := fun x hx => h x (List.mem_cons_of_mem _ hx)
    have hfold2 := foldl_normStep_normal true rest hrest [c]
    have hstep1 : normStep true [] [] = [] := by simp [normStep]
    have hstep2 : normStep true [] c = [c] := by
      simpa using normStep_normal true [] c hc
    simp only [mkAbsL] at hsplit
    simp [hsplit, hhead, hch, hstep1, hstep2, hfold2]

theorem dirname_mkAbs (comps : List (List Char)) (d : List Char)
    (h : NormalComps comps) (hd : NormalComp d) :
    dirnameL (mkAbsL (comps ++ [d])) = mkAbsL comps := by
  cases comps with
  | nil =>
    show dirnameL ('/' :: intercalateSlash [d]) = mkAbsL []
    have htake : takeToLastSlash ([] ++ '/' :: d) = [] ++ ['/'] :=
      takeToLastSlash_append d hd.2.2.2 []
    simp only [List.nil_append] at htake
    rw [dirnameL]
    simp only [intercalateSlash, htake]
    rw [if_neg]
    · rfl
    · simp
  | cons c crest =>
    have hI : intercalateSlash ((c :: crest) ++ [d])
        = intercalateSlash (c :: crest) ++ '/' :: d := by
      rw [intercalate_append (c :: crest) (by simp) [d] (by simp)]
      simp [intercalateSlash]
    show dirnameL ('/' :: intercalateSlash ((c :: crest) ++ [d])) = mkAbsL (c :: crest)
    rw [hI]
    have htake : takeToLastSlash (('/' :: intercalateSlash (c :: crest)) ++ '/' :: d)
        = ('/' :: intercalateSlash (c :: crest)) ++ ['/'] :=
      takeToLastSlash_append d hd.2.2.2 _
    rw [dirnameL]
    simp only [List.cons_append] at htake ⊢
    rw [htake]
    obtain ⟨z, hz, hzne⟩ := getLast?_intercalate_ne_slash (c :: crest) (by simp) h
    have hany : (('/' :: intercalateSlash (c :: crest)) ++ ['/']).any (fun x => x ≠ '/') = true := by
      obtain ⟨hc1, _, _, hc4⟩ := h c (by simp)
      obtain ⟨ch, c', hcc⟩ : ∃ ch c', c = ch :: c' := by
        cases c with
        | nil => exact absurd rfl hc1
        | cons a b => exact ⟨a, b, rfl⟩
      have hch : ch ≠ '/' := fun e => hc4 (by rw [hcc, e]; simp)
      have hh : (intercalateSlash (c :: crest)).head? = some ch := by
        rw [head?_intercalate c crest hc1, hcc]
        rfl
      have hmem : ch ∈ intercalateSlash (c :: crest) :=
        List.mem_of_mem_head? (by simp [Option.mem_def, hh])
      simp only [List.any_eq_true]
      exact ⟨ch, by simp [hmem], by simp [hch]⟩
    rw [if_pos]
    · have : ('/' :: intercalateSlash (c :: crest)).getLast? = some z := by
        cases hJ : intercalateSlash (c :: crest) with
        | nil => exact absurd hJ (intercalate_ne_nil _ (by simp) h)
        | cons w ws =>
          rw [hJ] at hz
          rw [List.getLast?_cons_cons]
          exact hz
      exact rstrip_append_slash _ z this hzne
    · constructor
      · simp
      · simpa using hany

theorem commonPrefixLen_self_append : ∀ s t : List (List Char),
    commonPrefixLen s (s ++ t) = s.length := by
  intro s t
  induction s with
  | nil => cases t <;> rfl
  | cons a as ih => simp [commonPrefixLen, ih]

theorem drop_length_append {α : Type} : ∀ (a b : List α), (a ++ b).drop a.length = b := by
  intro a b
  induction a with
  | nil => rfl
  | cons x t ih => simpa using ih

theorem filter_ne_nil_of_normal : ∀ comps : List (List Char), NormalComps comps →
    (comps.filter fun c => c ≠ []) = comps := by
  intro comps h
  induction comps with
  | nil => rfl
  | cons c rest ih =>
    have hc : c ≠ [] := (h c (by simp)).1
    have hrest : NormalComps rest := fun x hx => h x (List.mem_cons_of_mem _ hx)
    simp [List.filter_cons, hc]
    exact fun a ha => (hrest a ha).1

theorem commonPrefixLen_nil (x : List (List Char)) : commonPrefixLen [] x = 0 := rfl

theorem relpath_mkAbs (s f : List (List Char)) (hs : NormalComps s) (hf : NormalComps f)
    (hfne : f ≠ []) :
    relpathL (mkAbsL (s ++ f)) (mkAbsL s) = intercalateSlash f := by
  have hsf : NormalComps (s ++ f) := by
    intro x hx
    rcases List.mem_append.mp hx with hx | hx
    · exact hs x hx
    · exact hf x hx
  have hid1 : normpathL (mkAbsL (s ++ f)) = mkAbsL (s ++ f) := normpath_mkAbs _ hsf
  have hsplit1 : splitSlash (mkAbsL (s ++ f)) = [] :: (s ++ f) :=
    splitSlash_mkAbs _ (by simp [hfne]) fun x hx => (hsf x hx).2.2.2
  have hpl : (splitSlash (normpathL (mkAbsL (s ++ f)))).filter (fun c => decide (c ≠ []))
      = s ++ f := by
    rw [hid1, hsplit1, List.filter_cons, if_neg (by decide)]
    exact filter_ne_nil_of_normal _ hsf
  cases hsc : s with
  | nil =>
    subst hsc
    simp only [List.nil_append] at hpl
    have hsl : (splitSlash (normpathL (mkAbsL ([] : List (List Char))))).filter
        (fun c => decide (c ≠ [])) = [] := by decide
    simp only [relpathL, hpl, hsl, List.nil_append, commonPrefixLen_nil, List.length_nil,
      Nat.zero_sub, List.replicate_zero, List.drop_zero]
    rw [if_neg hfne]
  | cons s1 srest =>
    subst hsc
    have hid2 : normpathL (mkAbsL (s1 :: srest)) = mkAbsL (s1 :: srest) := normpath_mkAbs _ hs
    have hsplit2 : splitSlash (mkAbsL (s1 :: srest)) = [] :: s1 :: srest :=
      splitSlash_mkAbs _ (by simp) fun x hx => (hs x hx).2.2.2
    have hsl : (splitSlash (normpathL (mkAbsL (s1 :: srest)))).filter (fun c => decide (c ≠ []))
        = s1 :: srest := by
      rw [hid2, hsplit2, List.filter_cons, if_neg (by decide)]
      exact filter_ne_nil_of_normal _ hs
    simp only [List.cons_append] at hpl
    have hcp : commonPrefixLen (s1 :: srest) (s1 :: (srest ++ f)) = srest.length + 1 := by
      simp [commonPrefixLen, commonPrefixLen_self_append]
    have hdrop : List.drop (srest.length + 1) (s1 :: (srest ++ f)) = f := by
      simpa using drop_length_append srest f
    simp only [relpathL, List.cons_append, hpl, hsl, hcp, hdrop, List.length_cons,
      Nat.sub_self, List.replicate_zero, List.nil_append]
    rw [if_neg hfne]

theorem isPrefixOf_append_self : ∀ a b : List Char, a.isPrefixOf (a ++ b) = true := by
  intro a b
  induction a with
  | nil => simp [List.isPrefixOf]
  | cons x t ih => simpa [List.isPrefixOf] using ih

theorem join_mkAbs (l f : List (List Char)) (hl : NormalComps l) (hf : NormalComps f)
    (hfne : f ≠ []) :
    joinPathL (mkAbsL l) (intercalateSlash f) = mkAbsL (l ++ f) := by
  obtain ⟨f1, frest, hfc⟩ : ∃ f1 frest, f = f1 :: frest := by
    cases f with
    | nil => exact absurd rfl hfne
    | cons a b => exact ⟨a, b, rfl⟩
  have hf1 : NormalComp f1 := hf f1 (by rw [hfc]; simp)
  obtain ⟨ch, c', hcc⟩ : ∃ ch c', f1 = ch :: c' := by
    cases f1 with
    | nil => exact absurd rfl hf1.1
    | cons a b => exact ⟨a, b, rfl⟩
  have hch : ch ≠ '/' := fun e => hf1.2.2.2 (by rw [hcc, e]; simp)
  have hbhead : (intercalateSlash f).head? = some ch := by
    rw [hfc, head?_intercalate f1 frest hf1.1, hcc]
    rfl
  cases l with
  | nil =>
    rw [joinPathL, if_neg, if_pos]
    · show '/' :: [] ++ intercalateSlash f = mkAbsL ([] ++ f)
      simp [mkAbsL]
    · exact Or.inr rfl
    · rw [hbhead]
      simp [hch]
  | cons l1 lrest =>
    have hlast : ∃ z, (mkAbsL (l1 :: lrest)).getLast? = some z ∧ z ≠ '/' := by
      obtain ⟨z, hz, hzne⟩ := getLast?_intercalate_ne_slash (l1 :: lrest) (by simp) hl
      refine ⟨z, ?_, hzne⟩
      show ('/' :: intercalateSlash (l1 :: lrest)).getLast? = some z
      cases hJ : intercalateSlash (l1 :: lrest) with
      | nil => exact absurd hJ (intercalate_ne_nil _ (by simp) hl)
      | cons w ws =>
        rw [hJ] at hz
        rw [List.getLast?_cons_cons]
        exact hz
    obtain ⟨z, hz, hzne⟩ := hlast
    rw [joinPathL, if_neg, if_neg]
    · show ('/' :: intercalateSlash (l1 :: lrest)) ++ '/' :: intercalateSlash f
        = mkAbsL ((l1 :: lrest) ++ f)
      rw [show mkAbsL ((l1 :: lrest) ++ f) = '/' :: intercalateSlash ((l1 :: lrest) ++ f) from rfl,
        intercalate_append (l1 :: lrest) (by simp) f hfne]
      simp
    · intro hcon
      rcases hcon with hcon | hcon
      · exact absurd hcon (by simp [mkAbsL])
      · rw [hz] at hcon
        have : z = '/' := by injection hcon
        exact hzne this
    · rw [hbhead]
      simp [hch]

theorem mkAbsStr_data (c : List (List Char)) : (mkAbsStr c).data = mkAbsL c := rfl

theorem mkAbs_isPrefixOf_append (a f : List (List Char)) (hfne : f ≠ []) :
    (mkAbsL a).isPrefixOf (mkAbsL (a ++ f)) = true := by
  cases a with
  | nil =>
    show ['/'].isPrefixOf ('/' :: intercalateSlash f) = true
    simp [List.isPrefixOf]
  | cons x b =>
    have hsplit : mkAbsL ((x :: b) ++ f) = mkAbsL (x :: b) ++ '/' :: intercalateSlash f := by
      show '/' :: intercalateSlash ((x :: b) ++ f)
          = ('/' :: intercalateSlash (x :: b)) ++ '/' :: intercalateSlash f
      rw [intercalate_append (x :: b) (by simp) f hfne]
      simp
    rw [hsplit]
    exact isPrefixOf_append_self _ _

/-- C5: the path translation of render_plugin_api is a pure function of the
triple (file path, movie root path, library root path).  Its service root is
the parent directory of the normalized movie root; it fails (dropping the
match) whenever the normalized file path does not start with that service root;
and on a file located under the service root the result is exactly the library
root extended with the file path taken relative to the service root, which is
therefore always a path under the library root.  Stated over absolute paths
built from normal components, with the movie root one component below the
service root. -/
theorem c5_path_translation (scomps fcomps lcomps : List (List Char)) (d : List Char)
    (hs : NormalComps scomps) (hf : NormalComps fcomps) (hl : NormalComps lcomps)
    (hd : NormalComp d) (hfne : fcomps ≠ []) :
    translatePath (mkAbsStr (scomps ++ fcomps)) (mkAbsStr (scomps ++ [d])) (mkAbsStr lcomps)
        = some (mkAbsStr (lcomps ++ fcomps))
    ∧ (mkAbsL lcomps).isPrefixOf (mkAbsL (lcomps ++ fcomps)) = true
    ∧ (∀ fp rp lp : String,
        (dirnameL (normpathL rp.data)).isPrefixOf (normpathL fp.data) = false →
        translatePath fp rp lp = none) := by
  have hsf : NormalComps (scomps ++ fcomps) := by
    intro x hx
    rcases List.mem_append.mp hx with hx | hx
    · exact hs x hx
    · exact hf x hx
  have hsd : NormalComps (scomps ++ [d]) := by
    intro x hx
    rcases List.mem_append.mp hx with hx | hx
    · exact hs x hx
    · simp only [List.mem_singleton] at hx
      rw [hx]
      exact hd
  refine ⟨?_, mkAbs_isPrefixOf_append lcomps fcomps hfne, ?_⟩
  · have hid : normpathL (mkAbsL (scomps ++ [d])) = mkAbsL (scomps ++ [d]) :=
      normpath_mkAbs _ hsd
    have hdir : dirnameL (normpathL (mkAbsL (scomps ++ [d]))) = mkAbsL scomps := by
      rw [hid]
      exact dirname_mkAbs scomps d hs hd
    have hidf : normpathL (mkAbsL (scomps ++ fcomps)) = mkAbsL (scomps ++ fcomps) :=
      normpath_mkAbs _ hsf
    have hpfx : (mkAbsL scomps).isPrefixOf (normpathL (mkAbsL (scomps ++ fcomps))) = true := by
      rw [hidf]
      exact mkAbs_isPrefixOf_append scomps fcomps hfne
    have hrel : relpathL (mkAbsL (scomps ++ fcomps)) (mkAbsL scomps) = intercalateSlash fcomps :=
      relpath_mkAbs scomps fcomps hs hf hfne
    have hjoin : joinPathL (mkAbsL lcomps) (intercalateSlash fcomps) = mkAbsL (lcomps ++ fcomps) :=
      join_mkAbs lcomps fcomps hl hf hfne
    have hlf : NormalComps (lcomps ++ fcomps) := by
      intro x hx
      rcases List.mem_append.mp hx with hx | hx
      · exact hl x hx
      · exact hf x hx
    simp only [translatePath, mkAbsStr_data, hdir, hpfx, hrel, hjoin]
    rw [if_neg (by simp [mkAbsL]), if_neg (by simp [mkAbsL]), if_neg (by simp)]
    rw [normpath_mkAbs _ hlf]
    rfl
  · intro fp rp lp hpf
    simp only [translatePath]
    by_cases h1 : rp.data = []
    · simp [h1]
    · by_cases h2 : dirnameL (normpathL rp.data) = []
      · simp [h1, h2]
      · simp [h1, h2, hpf]

/-- Witness for C5 at the concrete example used by the specification:
the movie root sits under the service root and the file translates into the
library root. -/
theorem c5_path_translation_witness :
    translatePath "/movies/Foo (2020)/Foo.mkv" "/movies/Foo (2020)" "/lib1"
        = some "/lib1/Foo (2020)/Foo.mkv" := by
  have h := (c5_path_translation ["movies".data] ["Foo (2020)".data, "Foo.mkv".data]
      ["lib1".data] "Foo (2020)".data (by decide) (by decide) (by decide) (by decide)
      (by decide)).1
  rw [show ("/movies/Foo (2020)/Foo.mkv" : String)
        = mkAbsStr (["movies".data] ++ ["Foo (2020)".data, "Foo.mkv".data]) from by decide,
    show ("/movies/Foo (2020)" : String)
        = mkAbsStr (["movies".data] ++ ["Foo (2020)".data]) from by decide,
    show ("/lib1" : String) = mkAbsStr ["lib1".data] from by decide,
    show ("/lib1/Foo (2020)/Foo.mkv" : String)
        = mkAbsStr (["lib1".data] ++ ["Foo (2020)".data, "Foo.mkv".data]) from by decide]
  exact h

/-! ### Rule evaluation and routing (render_plugin_api, lines 588 to 624) -/

/-- Helper for Python int() restricted to canonical decimal strings (the form
the settings UI stores for a library id). -/
def digitsToNat? (l : List Char) : Option Nat :=
  if l = [] then none
  else
    l.foldl
      (fun acc c =>
        match acc with
        | none => none
        | some n => if c.isDigit then some (n * 10 + (c.toNat - 48)) else none)
      (some 0)

/-- Python int() on a canonical decimal string; a failure raises ValueError,
which the surrounding except turns into a skipped slot. -/
def pyInt? (s : String) : Option Int :=
  match s.data with
  | '-' :: ds => (digitsToNat? ds).map fun n => -(n : Int)
  | ds => (digitsToNat? ds).map fun n => (n : Int)

/-- One configured rule slot: the rule_query_N and library_id_N settings. -/
structure Slot where
  rule_query : String
  library_id : String

/-- The per-record fields the router consumes: the resolved file path and the
movie root path. -/
structure FlatData where
  path : String
  root_path : Option String

/-- One matched_rules entry of render_plugin_api. -/
structure MatchRule where
  library_id : Int
  index : Nat
  path : String
deriving DecidableEq

/-- The value of an optional string, defaulting to empty (falsy). -/
def getS (o : Option String) : String := o.getD ""

/-- The outcome of one slot for one record, mirroring the rule loop body of
render_plugin_api: inactive when the query or the library id setting is falsy;
skipped when the evaluator raises (the evaluation oracle returns none, which
with the except block also covers an unparsable library id) or returns a falsy
value, when the catalog has no path for the library, or when path translation
fails; otherwise exactly one matched rule with the translated path.  The evalQ
oracle stands for simple_eval with the record's fields as names, and receives
the AND/OR-rewritten query. -/
def slotResult (catalog : Int → Option String) (evalQ : String → Option Bool)
    (fd : FlatData) (i : Nat) (s : Slot) : Option MatchRule :=
  if s.rule_query = "" then none
  else if s.library_id = "" then none
  else
    match evalQ (safeQuery s.rule_query) with
    | none => none
    | some false => none
    | some true =>
      match pyInt? s.library_id with
      | none => none
      | some lib =>
        match catalog lib with
        | none => none
        | some library_path =>
          match translatePath fd.path (getS fd.root_path) library_path with
          | none => none
          | some p => some ⟨lib, i, p⟩

/-- The ten rule slot indexes, in the ascending order in which the Settings
init loop inserts the rule_query_N keys (the iteration order of configured). -/
def slotIndexes : List Nat := [1, 2, 3, 4, 5, 6, 7, 8, 9, 10]

/-- One step of the matched_rules accumulation. -/
def slotStep (catalog : Int → Option String) (evalQ : String → Option Bool)
    (fd : FlatData) (cfg : Nat → Slot) (acc : List MatchRule) (i : Nat) : List MatchRule :=
  match slotResult catalog evalQ fd i (cfg i) with
  | none => acc
  | some m => acc ++ [m]

/-- The rule evaluation loop for one record: every slot is inspected in
slotIndexes order and each matching slot appends one matched rule. -/
def routeRecord (cfg : Nat → Slot) (catalog : Int → Option String)
    (evalQ : String → Option Bool) (fd : FlatData) : List MatchRule :=
  slotIndexes.foldl (slotStep catalog evalQ fd cfg) []

theorem foldl_slotStep_eq (catalog : Int → Option String) (evalQ : String → Option Bool)
    (fd : FlatData) (cfg : Nat → Slot) :
    ∀ (l : List Nat) (acc : List MatchRule),
      l.foldl (slotStep catalog evalQ fd cfg) acc
        = acc ++ l.filterMap fun i => slotResult catalog evalQ fd i (cfg i) := by
  intro l
  induction l with
  | nil => intro acc; simp
  | cons x t ih =>
    intro acc
    cases hg : slotResult catalog evalQ fd x (cfg x) with
    | none => simp [List.foldl_cons, slotStep, hg, ih, List.filterMap_cons]
    | some m => simp [List.foldl_cons, slotStep, hg, ih, List.filterMap_cons]

theorem routeRecord_eq_filterMap (cfg : Nat → Slot) (catalog : Int → Option String)
    (evalQ : String → Option Bool) (fd : FlatData) :
    routeRecord cfg catalog evalQ fd
      = slotIndexes.filterMap fun i => slotResult catalog evalQ fd i (cfg i) := by
  rw [routeRecord, foldl_slotStep_eq]
  simp

theorem filterMap_eq_nil_of_none {α β : Type} (g : α → Option β) :
    ∀ l : List α, (∀ k ∈ l, g k = none) → l.filterMap g = [] := by
  intro l
  induction l with
  | nil => intro _; rfl
  | cons x t ih =>
    intro h
    rw [List.filterMap_cons, h x (by simp), ih fun k hk => h k (List.mem_cons_of_mem _ hk)]

theorem filterMap_eq_single {β : Type} (g : Nat → Option β) :
    ∀ l : List Nat, l.Pairwise (· < ·) → ∀ j b, j ∈ l → g j = some b →
      (∀ k ∈ l, k ≠ j → g k = none) → l.filterMap g = [b] := by
  intro l
  induction l with
  | nil =>
    intro _ j b hj
    exact absurd hj (by simp)
  | cons x t ih =>
    intro hp j b hj hgj ho
    have hpt : t.Pairwise (· < ·) := (List.pairwise_cons.mp hp).2
    have hlt : ∀ k ∈ t, x < k := (List.pairwise_cons.mp hp).1
    rcases List.mem_cons.mp hj with he | hm
    · subst he
      have ht : t.filterMap g = [] := filterMap_eq_nil_of_none g t fun k hk =>
        ho k (List.mem_cons_of_mem _ hk) fun e => absurd (e ▸ hlt k hk) (lt_irrefl _)
      simp [List.filterMap_cons, hgj, ht]
    · have hx : g x = none := ho x (by simp) fun e => absurd (e ▸ hlt j hm) (lt_irrefl _)
      simp only [List.filterMap_cons, hx]
      exact ih hpt j b hm hgj fun k hk hkj => ho k (List.mem_cons_of_mem _ hk) hkj

theorem filterMap_eq_pair {β : Type} (g : Nat → Option β) :
    ∀ l : List Nat, l.Pairwise (· < ·) → ∀ i j a b, i ∈ l → j ∈ l → i < j →
      g i = some a → g j = some b →
      (∀ k ∈ l, k ≠ i → k ≠ j → g k = none) → l.filterMap g = [a, b] := by
  intro l
  induction l with
  | nil =>
    intro _ i j a b hi
    exact absurd hi (by simp)
  | cons x t ih =>
    intro hp i j a b hi hj hij hga hgb ho
    have hpt : t.Pairwise (· < ·) := (List.pairwise_cons.mp hp).2
    have hlt : ∀ k ∈ t, x < k := (List.pairwise_cons.mp hp).1
    rcases List.mem_cons.mp hi with hei | hmi
    · subst hei
      have hjt : j ∈ t := by
        rcases List.mem_cons.mp hj with hej | h
        · exact absurd (hej ▸ hij) (lt_irrefl _)
        · exact h
      have ht : t.filterMap g = [b] :=
        filterMap_eq_single g t hpt j b hjt hgb fun k hk hkj =>
          ho k (List.mem_cons_of_mem _ hk) (fun e => absurd (e ▸ hlt k hk) (lt_irrefl _)) hkj
      simp [List.filterMap_cons, hga, ht]
    · rcases List.mem_cons.mp hj with hej | hmj
      · exfalso
        have h1 := hlt i hmi
        rw [hej] at hij
        omega
      · have hx : g x = none := ho x (by simp)
          (fun e => absurd (e ▸ hlt i hmi) (lt_irrefl _))
          (fun e => absurd (e ▸ hlt j hmj) (lt_irrefl _))
        simp only [List.filterMap_cons, hx]
        exact ih hpt i j a b hmi hmj hij hga hgb fun k hk h1 h2 =>
          ho k (List.mem_cons_of_mem _ hk) h1 h2

/-- C6: for one record the ten rule slots are inspected in ascending index
order and every matching active slot that also passes the catalog and
translation guards yields exactly one matched rule.  A record matching exactly
two distinct active slots yields exactly those two matched rules, in ascending
slot-index order; and a slot with an empty query or an unset target library
never yields a matched rule, for any record. -/
theorem c6_router_slots (cfg : Nat → Slot) (catalog : Int → Option String)
    (evalQ : String → Option Bool) (fd : FlatData) (i j : Nat) (mi mj : MatchRule)
    (hij : i < j) (hi : i ∈ slotIndexes) (hj : j ∈ slotIndexes)
    (hmi : slotResult catalog evalQ fd i (cfg i) = some mi)
    (hmj : slotResult catalog evalQ fd j (cfg j) = some mj)
    (ho : ∀ k ∈ slotIndexes, k ≠ i → k ≠ j → slotResult catalog evalQ fd k (cfg k) = none) :
    routeRecord cfg catalog evalQ fd = [mi, mj]
    ∧ (∀ (k : Nat) (s : Slot), s.rule_query = "" ∨ s.library_id = "" →
        slotResult catalog evalQ fd k s = none) := by
  constructor
  · rw [routeRecord_eq_filterMap]
    exact filterMap_eq_pair _ slotIndexes (by decide) i j mi mj hi hj hij hmi hmj ho
  · intro k s hk
    rcases hk with hk | hk
    · simp [slotResult, hk]
    · by_cases hq : s.rule_query = ""
      · simp [slotResult, hq]
      · simp [slotResult, hq, hk]

/-- Witness for C6: a record matching exactly slots 2 and 5 yields the two
matched rules for those slots in that order. -/
theorem c6_router_slots_witness :
    routeRecord
      (fun k => if k = 2 then ⟨"event_type", "7"⟩
        else if k = 5 then ⟨"movie_id", "8"⟩ else ⟨"", ""⟩)
      (fun n => if n = 7 then some "/lib1" else if n = 8 then some "/lib2" else none)
      (fun _ => some true)
      ⟨"/movies/Foo/Foo.mkv", some "/movies/Foo"⟩
      = [⟨7, 2, "/lib1/Foo/Foo.mkv"⟩, ⟨8, 5, "/lib2/Foo/Foo.mkv"⟩] :=
  (c6_router_slots
    (fun k => if k = 2 then ⟨"event_type", "7"⟩
      else if k = 5 then ⟨"movie_id", "8"⟩ else ⟨"", ""⟩)
    (fun n => if n = 7 then some "/lib1" else if n = 8 then some "/lib2" else none)
    (fun _ => some true)
    ⟨"/movies/Foo/Foo.mkv", some "/movies/Foo"⟩
    2 5 ⟨7, 2, "/lib1/Foo/Foo.mkv"⟩ ⟨8, 5, "/lib2/Foo/Foo.mkv"⟩
    (by omega) (by decide) (by decide) (by decide) (by decide) (by decide)).1

/-! ### The per-file record guard (render_plugin_api, lines 566 to 584) -/

/-- os.path.join of two strings (two-argument posixpath.join). -/
def joinPathStr (a b : String) : String := String.mk (joinPathL a.data b.data)

/-- The path resolution for one movie file entry: the file's own path field, or,
when that is falsy while the movie root and the relative path are truthy, the
join of the root with the relative path. -/
def resolvedPath (root_path mf_path mf_relative : Option String) : Option String :=
  if ¬ pyTruthyS mf_path ∧ pyTruthyS root_path ∧ pyTruthyS mf_relative then
    some (joinPathStr (getS root_path) (getS mf_relative))
  else mf_path

/-- The record guard: the record survives to rule evaluation with its resolved
path only when that path is truthy and, when the movie root is truthy, the
normalized path starts with the normalized root as a string. -/
def survivingPath (root_path mf_path mf_relative : Option String) : Option String :=
  match resolvedPath root_path mf_path mf_relative with
  | none => none
  | some p =>
    if p = "" then none
    else if pyTruthyS root_path
        ∧ (normpathL (getS root_path).data).isPrefixOf (normpathL p.data) = false then none
    else some p

/-- Directory containment: the normalized root followed by a slash is a string
prefix of the normalized path. -/
def insideDir (root p : String) : Prop :=
  (normpathL root.data ++ ['/']).isPrefixOf (normpathL p.data) = true

instance (root p : String) : Decidable (insideDir root p) := by
  unfold insideDir
  infer_instance

/-- C7 counterexample: the containment check of the flattener is a plain
string-prefix test on the normalized paths, so a file in the sibling directory
/movies/Foobar passes the check for the movie root /movies/Foo even though it
does not lie inside that root: the record is not dropped before rule
evaluation, and with an always-true active rule it yields a matched rule — a
MatchResult attributable to an outside-root record. -/
theorem c7_counterexample :
    survivingPath (some "/movies/Foo") (some "/movies/Foobar/x.mkv") none
        = some "/movies/Foobar/x.mkv"
    ∧ ¬ insideDir "/movies/Foo" "/movies/Foobar/x.mkv"
    ∧ routeRecord (fun k => if k = 1 then ⟨"event_type", "7"⟩ else ⟨"", ""⟩)
        (fun n => if n = 7 then some "/lib1" else none) (fun _ => some true)
        ⟨"/movies/Foobar/x.mkv", some "/movies/Foo"⟩
        = [⟨7, 1, "/lib1/Foobar/x.mkv"⟩] :=
  ⟨by decide, by decide, by decide⟩

/-- C7 (amended): a record is dropped before rule evaluation exactly when its
resolved path is falsy, or when the movie root is truthy and the normalized
path does not start, as a string, with the normalized root.  The guard is a
string-prefix comparison rather than directory containment, and no containment
check at all is applied when the movie root is absent; a surviving record keeps
its resolved path. -/
theorem c7_amended (root_path mf_path mf_relative : Option String) :
    (survivingPath root_path mf_path mf_relative = none
      ↔ ¬ pyTruthyS (resolvedPath root_path mf_path mf_relative)
        ∨ (pyTruthyS root_path
            ∧ (normpathL (getS root_path).data).isPrefixOf
                (normpathL (getS (resolvedPath root_path mf_path mf_relative)).data) = false))
    ∧ ∀ p, survivingPath root_path mf_path mf_relative = some p
        → resolvedPath root_path mf_path mf_relative = some p := by
  unfold survivingPath
  cases hres : resolvedPath root_path mf_path mf_relative with
  | none => simp [pyTruthyS]
  | some p =>
    dsimp only
    constructor
    · constructor
      · intro h
        by_cases hp : p = ""
        · left
          simp [pyTruthyS, hp]
        · rw [if_neg hp] at h
          by_cases hc : pyTruthyS root_path
              ∧ (normpathL (getS root_path).data).isPrefixOf (normpathL p.data) = false
          · right
            exact ⟨hc.1, by simpa [getS] using hc.2⟩
          · rw [if_neg hc] at h
            cases h
      · intro h
        by_cases hp : p = ""
        · rw [if_pos hp]
        · rw [if_neg hp]
          rcases h with h | h
          · exact absurd (by simp [pyTruthyS, hp]) h
          · rw [if_pos ⟨h.1, by simpa [getS] using h.2⟩]
    · intro q hq
      by_cases hp : p = ""
      · rw [if_pos hp] at hq
        cases hq
      · rw [if_neg hp] at hq
        by_cases hc : pyTruthyS root_path
            ∧ (normpathL (getS root_path).data).isPrefixOf (normpathL p.data) = false
        · rw [if_pos hc] at hq
          cases hq
        · rw [if_neg hc] at hq
          exact hq

/-! ### The action trigger loop (render_plugin_api, lines 626 to 658) -/

/-- The value returned by test_path_for_pending_task as consumed by the loop:
a falsy value, or a dict carrying the add_file_to_pending_tasks flag and the
priority_score (defaulted to 0 through result.get). -/
inductive PendResult
  | falsyRes
  | res (add_file_to_pending_tasks : Bool) (priority_score : Int)
deriving DecidableEq

/-- Truthiness of result together with its add_file_to_pending_tasks field. -/
def needsTask : PendResult → Bool
  | .falsyRes => false
  | .res add _ => add

/-- The priority_score read with default 0. -/
def priorityOf : PendResult → Int
  | .falsyRes => 0
  | .res _ p => p

/-- Oracle for the pending-task service; an error models a raised exception,
which the handler does not catch inside the loop. -/
structure PendingOracle where
  test_path : String → Int → Except Unit PendResult
  create_task : String → Int → Int → Except Unit Unit

/-- The per-slot action settings consulted in the loop: trigger_test_path_N
(possibly absent, in which case the loop defaults it to true) and
create_task_N. -/
structure TrigCfg where
  trigger_test_path : Nat → Option Bool
  create_task : Nat → Bool

/-- External calls issued by the trigger loop, in order. -/
inductive ExtCall
  | testPath (path : String) (library_id : Int)
  | createTask (path : String) (library_id : Int) (priority : Int)
deriving DecidableEq

/-- One triggered_actions entry. -/
structure TrigAction where
  library_id : Int
  action : String
  rule_index : Nat
deriving DecidableEq

/-- The response produced by the matched-rules section of the handler. -/
inductive WebhookOutcome
  | success (triggered_actions : List TrigAction)
  | noMatch
  | serverError
deriving DecidableEq

/-- The loop over matched_rules: yields the external calls issued in order, the
triggered_actions accumulated, and whether the loop ran to completion (false
when a pending-task call raised, in which case the exception leaves the loop
and the remaining rules are not processed). -/
def triggerLoop (cfg : TrigCfg) (o : PendingOracle) : List MatchRule →
    List ExtCall × List TrigAction × Bool
  | [] => ([], [], true)
  | r :: rest =>
    if (cfg.trigger_test_path r.index).getD true then
      match o.test_path r.path r.library_id with
      | .error _ => ([.testPath r.path r.library_id], [], false)
      | .ok res =>
        if cfg.create_task r.index ∧ needsTask res then
          match o.create_task r.path r.library_id (priorityOf res) with
          | .error _ => ([.testPath r.path r.library_id], [], false)
          | .ok _ =>
            let t := triggerLoop cfg o rest
            (.testPath r.path r.library_id :: .createTask r.path r.library_id (priorityOf res) :: t.1,
              ⟨r.library_id, "create_task", r.index⟩ :: t.2.1, t.2.2)
        else
          let t := triggerLoop cfg o rest
          (.testPath r.path r.library_id :: t.1,
            ⟨r.library_id, "test_only", r.index⟩ :: t.2.1, t.2.2)
    else
      triggerLoop cfg o rest

/-- The matched-rules section of render_plugin_api: an empty matched_rules list
produces the success false no-match response; otherwise the loop runs, and an
exception inside it escapes to the top-level handler which replies with the
internal-server-error (status 500) response, discarding any accumulated
triggered_actions. -/
def triggerPhase (cfg : TrigCfg) (o : PendingOracle) (matched : List MatchRule) :
    List ExtCall × WebhookOutcome :=
  if matched.isEmpty then ([], .noMatch)
  else
    let t := triggerLoop cfg o matched
    (t.1, if t.2.2 then .success t.2.1 else .serverError)

theorem triggerLoop_all_disabled (cfg : TrigCfg) (o : PendingOracle) :
    ∀ matched : List MatchRule,
      (∀ r ∈ matched, (cfg.trigger_test_path r.index).getD true = false) →
      triggerLoop cfg o matched = ([], [], true) := by
  intro matched
  induction matched with
  | nil => intro _; rfl
  | cons r rest ih =>
    intro h
    have hr := h r (by simp)
    rw [triggerLoop, if_neg (by simp [hr])]
    exact ih fun x hx => h x (List.mem_cons_of_mem _ hx)

/-- C9: a matched rule whose trigger test flag is false issues no external call
and contributes no triggered_actions entry; consequently, when at least one
rule matched and every matched rule has the flag false, the response is a
success carrying an empty triggered_actions list even though nothing was done. -/
theorem c9_disabled_rules (cfg : TrigCfg) (o : PendingOracle) (matched : List MatchRule)
    (hne : matched ≠ [])
    (hall : ∀ r ∈ matched, (cfg.trigger_test_path r.index).getD true = false) :
    triggerPhase cfg o matched = ([], .success []) := by
  rw [triggerPhase, if_neg (by simp [hne])]
  rw [triggerLoop_all_disabled cfg o matched hall]
  rfl

/-- Witness for C9 at one matched rule with the trigger test disabled. -/
theorem c9_disabled_rules_witness :
    triggerPhase ⟨fun _ => some false, fun _ => false⟩
      ⟨fun _ _ => .error (), fun _ _ _ => .error ()⟩ [⟨7, 1, "/lib1/x.mkv"⟩]
      = ([], .success []) :=
  c9_disabled_rules ⟨fun _ => some false, fun _ => false⟩
    ⟨fun _ _ => .error (), fun _ _ _ => .error ()⟩ [⟨7, 1, "/lib1/x.mkv"⟩]
    (by decide) (by decide)

/-- C1 counterexample: with two matched rules both having the trigger test
enabled, a raised necessity-test call on the first rule aborts the loop: the
response is the internal server error, not a success carrying a TestFailed
outcome for that match, and the second match is never processed (its test call
is never issued). -/
theorem c1_counterexample :
    triggerPhase ⟨fun _ => some true, fun _ => false⟩
      ⟨fun _ _ => .error (), fun _ _ _ => .error ()⟩
      [⟨7, 1, "/lib1/a.mkv"⟩, ⟨8, 2, "/lib2/b.mkv"⟩]
      = ([.testPath "/lib1/a.mkv" 7], .serverError)
    ∧ ExtCall.testPath "/lib2/b.mkv" 8 ∉
        (triggerPhase ⟨fun _ => some true, fun _ => false⟩
          ⟨fun _ _ => .error (), fun _ _ _ => .error ()⟩
          [⟨7, 1, "/lib1/a.mkv"⟩, ⟨8, 2, "/lib2/b.mkv"⟩]).1 :=
  ⟨by decide, by decide⟩

theorem triggerLoop_append (cfg : TrigCfg) (o : PendingOracle) :
    ∀ xs ys : List MatchRule,
      (triggerLoop cfg o xs).2.2 = true →
      triggerLoop cfg o (xs ++ ys)
        = ((triggerLoop cfg o xs).1 ++ (triggerLoop cfg o ys).1,
           (triggerLoop cfg o xs).2.1 ++ (triggerLoop cfg o ys).2.1,
           (triggerLoop cfg o ys).2.2) := by
  intro xs
  induction xs with
  | nil => intro ys _; simp [triggerLoop]
  | cons r rest ih =>
    intro ys hok
    by_cases htt : (cfg.trigger_test_path r.index).getD true = true
    · cases hres : o.test_path r.path r.library_id with
      | error e =>
        exfalso
        simp [triggerLoop, htt, hres] at hok
      | ok res =>
        by_cases hct : cfg.create_task r.index ∧ needsTask res
        · cases hcr : o.create_task r.path r.library_id (priorityOf res) with
          | error e =>
            exfalso
            simp [triggerLoop, htt, hres, hct, hcr] at hok
          | ok u =>
            have hok2 : (triggerLoop cfg o rest).2.2 = true := by
              simpa [triggerLoop, htt, hres, hct, hcr] using hok
            simp [triggerLoop, htt, hres, hct, hcr, ih ys hok2]
        · have hok2 : (triggerLoop cfg o rest).2.2 = true := by
            simpa [triggerLoop, htt, hres, hct] using hok
          simp [triggerLoop, htt, hres, hct, ih ys hok2]
    · have hok2 : (triggerLoop cfg o rest).2.2 = true := by
        simpa [triggerLoop, htt] using hok
      simp [triggerLoop, htt, ih ys hok2]

/-- C1 (amended): when the necessity-test call raises for a matched rule whose
trigger test is enabled, the exception propagates out of the loop to the
top-level handler: no outcome is recorded for the failing match, none of the
remaining matched rules is processed (no further external call is issued), and
the handler replies with the internal-server-error response. -/
theorem c1_amended (cfg : TrigCfg) (o : PendingOracle) (pre : List MatchRule)
    (r : MatchRule) (rest : List MatchRule)
    (hpre : (triggerLoop cfg o pre).2.2 = true)
    (htt : (cfg.trigger_test_path r.index).getD true = true)
    (herr : o.test_path r.path r.library_id = .error ()) :
    triggerPhase cfg o (pre ++ r :: rest)
      = ((triggerLoop cfg o pre).1 ++ [.testPath r.path r.library_id], .serverError) := by
  have hloop : triggerLoop cfg o (r :: rest) = ([.testPath r.path r.library_id], [], false) := by
    rw [triggerLoop, if_pos htt, herr]
  rw [triggerPhase, if_neg (by simp)]
  rw [triggerLoop_append cfg o pre (r :: rest) hpre, hloop]
  simp

/-- Witness for the amended C1 at a concrete failing oracle, with one further
matched rule left unprocessed. -/
theorem c1_amended_witness :
    triggerPhase ⟨fun _ => some true, fun _ => false⟩
      ⟨fun _ _ => .error (), fun _ _ _ => .error ()⟩
      ([] ++ ⟨7, 1, "/lib1/a.mkv"⟩ :: [⟨8, 2, "/lib2/b.mkv"⟩])
      = ((triggerLoop ⟨fun _ => some true, fun _ => false⟩
            ⟨fun _ _ => .error (), fun _ _ _ => .error ()⟩ []).1
          ++ [.testPath "/lib1/a.mkv" 7], .serverError) :=
  c1_amended ⟨fun _ => some true, fun _ => false⟩
    ⟨fun _ _ => .error (), fun _ _ _ => .error ()⟩ [] ⟨7, 1, "/lib1/a.mkv"⟩
    [⟨8, 2, "/lib2/b.mkv"⟩] (by decide) (by decide) rfl

/-! ### Tag and quality-profile enrichment (render_plugin_api, lines 532 to 559) -/

/-- The tags field of the flattened base record: the raw tag ids taken from the
webhook movie object, or the label strings resolved through the API. -/
inductive TagsField
  | ids (l : List Int)
  | labels (l : List String)
deriving DecidableEq

/-- The parts of flat_data_base read or written by the enrichment try block. -/
structure FlatBase where
  movie_id : Option Int
  tags : TagsField
  quality_profile : Option String
deriving DecidableEq

/-- One entry of the get_tag listing. -/
structure TagRec where
  id : Int
  label : String
deriving DecidableEq

/-- One entry of the get_quality_profile listing. -/
structure ProfileRec where
  id : Int
  name : String
deriving DecidableEq

/-- The movie object returned by get_movie, restricted to the fields read. -/
structure MovieInfo where
  tags : List Int
  qualityProfileId : Option Int
deriving DecidableEq

/-- Oracle for the three Radarr API calls of the enrichment block; an error
models a raised exception, caught by the enclosing except, which only logs and
keeps whatever had been assigned so far. -/
structure EnrichOracle where
  get_movie : Int → Except Unit MovieInfo
  get_tag : Except Unit (List TagRec)
  get_quality_profile : Except Unit (List ProfileRec)

/-- The quality-profile half of the enrichment block: on a truthy profile id,
list the profiles and take the name of the first with a matching id. -/
def fetchProfile (o : EnrichOracle) (info : MovieInfo) (b : FlatBase) : FlatBase :=
  if pyTruthyI info.qualityProfileId then
    match o.get_quality_profile with
    | .error _ => b
    | .ok profiles =>
      match profiles.find? fun prof => decide (prof.id = info.qualityProfileId.getD 0) with
      | none => b
      | some prof => { b with quality_profile := some prof.name }
  else b

/-- The enrichment try block of render_plugin_api: on a truthy movie id, fetch
the movie; when the fetched movie carries tag ids, list the tags and replace
the tags field with the labels whose ids occur in the movie's tag ids; then
resolve the quality profile name.  Any raised call aborts the block, keeping
the record exactly as already assigned. -/
def fetchExtraInfo (o : EnrichOracle) (base : FlatBase) : FlatBase :=
  if pyTruthyI base.movie_id then
    match o.get_movie (base.movie_id.getD 0) with
    | .error _ => base
    | .ok info =>
      if info.tags ≠ [] then
        match o.get_tag with
        | .error _ => base
        | .ok all_tags =>
          fetchProfile o info
            { base with
                tags := .labels ((all_tags.filter fun t => info.tags.contains t.id).map
                  fun t => t.label) }
      else fetchProfile o info base
  else base

/-- C3 counterexample: for a movie carrying tag ids, a raised tag-resolution
lookup (the movie fetch, or the tag listing itself) leaves the tags field as
the raw webhook tag id list, which is neither an empty label sequence nor an
empty id sequence; the failure is non-fatal (the record is returned intact). -/
theorem c3_counterexample :
    fetchExtraInfo ⟨fun _ => .error (), .error (), .error ()⟩ ⟨some 5, .ids [3, 7], none⟩
      = ⟨some 5, .ids [3, 7], none⟩
    ∧ fetchExtraInfo ⟨fun _ => .ok ⟨[3, 7], none⟩, .error (), .error ()⟩
        ⟨some 5, .ids [3, 7], none⟩
      = ⟨some 5, .ids [3, 7], none⟩
    ∧ TagsField.ids [3, 7] ≠ .labels []
    ∧ TagsField.ids [3, 7] ≠ .ids [] :=
  ⟨by decide, by decide, by decide, by decide⟩

/-- C3 (amended): when the tag-resolution lookup raises — the movie fetch, or
the tag listing for a movie with tag ids — the record keeps the tags value it
already had (the raw webhook tag ids), rather than degrading to an empty label
sequence, and the failure is non-fatal: the whole record is returned unchanged. -/
theorem c3_amended (o : EnrichOracle) (base : FlatBase) :
    (o.get_movie (base.movie_id.getD 0) = .error () → fetchExtraInfo o base = base)
    ∧ (∀ info, o.get_movie (base.movie_id.getD 0) = .ok info → info.tags ≠ [] →
        o.get_tag = .error () → fetchExtraInfo o base = base) := by
  constructor
  · intro h
    by_cases hm : pyTruthyI base.movie_id = true
    · simp [fetchExtraInfo, hm, h]
    · simp [fetchExtraInfo, hm]
  · intro info hinfo htags htag
    by_cases hm : pyTruthyI base.movie_id = true
    · simp [fetchExtraInfo, hm, hinfo, htags, htag]
    · simp [fetchExtraInfo, hm]

/-- Witness for the amended C3 at a concrete raising oracle. -/
theorem c3_amended_witness :
    fetchExtraInfo ⟨fun _ => .error (), .error (), .error ()⟩ ⟨some 5, .ids [3, 7], none⟩
      = ⟨some 5, .ids [3, 7], none⟩ :=
  (c3_amended ⟨fun _ => .error (), .error (), .error ()⟩ ⟨some 5, .ids [3, 7], none⟩).1 rfl

/-- Witness for the amended C7: a surviving in-root record keeps its resolved
path. -/
theorem c7_amended_witness :
    resolvedPath (some "/movies/Foo") (some "/movies/Foo/x.mkv") none
      = some "/movies/Foo/x.mkv" :=
  (c7_amended (some "/movies/Foo") (some "/movies/Foo/x.mkv") none).2
    "/movies/Foo/x.mkv" (by decide)
